import Mathlib

/-!
Shallow embedding of the reconciliation code of seller.py and market.py.

Pure functions are translated directly.  The Python code mutates the
offer id list in place (list.remove / iteration); the embedding makes the
mutation explicit: every function that touches the list also returns its
final value.  Fallible code (the Python builtin int applied to a string,
which raises ValueError on malformed input) returns Option, none meaning
that the call raises and the surrounding function produces no value.
-/

/-- One record of the feed list produced by download_stock.  The three
fields used by the code are the product code, the raw quantity text and the
raw price text; `code` and `quantity` hold the values after the str(...)
coercion the source applies at every use site. -/
structure Watch where
  code : String
  quantity : String
  price : String
deriving DecidableEq

/-- Base-10 value of a list of ASCII digit characters. -/
def digitsVal (l : List Char) : Nat :=
  l.foldl (fun a c => a * 10 + (c.toNat - 48)) 0

/-- Remove leading and trailing whitespace characters from a character
list (the whitespace stripping performed by the Python builtin int). -/
def stripSpaces (l : List Char) : List Char :=
  ((l.dropWhile Char.isWhitespace).reverse.dropWhile Char.isWhitespace).reverse

/-- Sign and digit handling of the Python builtin int after whitespace
stripping: an optional sign, then one or more ASCII digits; anything else
raises ValueError, modelled as none. -/
def pyIntAux : List Char → Option Int
  | [] => none
  | c :: cs =>
    let p : Int × List Char :=
      if c = '-' then (-1, cs) else if c = '+' then (1, cs) else (1, c :: cs)
    if p.2 ≠ [] ∧ p.2.all Char.isDigit then some (p.1 * (digitsVal p.2 : Nat)) else none

/-- Model of the Python builtin int applied to a string. -/
def pyInt? (s : String) : Option Int := pyIntAux (stripSpaces s.data)

/-- The quantity branch of create_stocks (seller.py lines 291-297 and
market.py lines 329-335): the literal text ">10" becomes 100, the literal
text "1" becomes 0, anything else goes through the Python builtin int,
which raises on non-numeric text (none). -/
def normalizeQuantity (count : String) : Option Int :=
  if count = ">10" then some 100
  else if count = "1" then some 0
  else pyInt? count

/-- seller.py price_conversion: re.sub("[^0-9]", "", price.split(".")[0]).
Element 0 of split(".") is the part of the string before the first literal
period (the whole string when no period occurs), and the re.sub keeps only
the ASCII digit characters of that part.  The result is a string; no
integer parsing happens here. -/
def price_conversion (price : String) : String :=
  String.mk ((price.data.takeWhile (fun c => c ≠ '.')).filter Char.isDigit)

/-- The sample feed price text of the spec, 24 570.00 followed by the
rouble suffix, with an apostrophe (character 39) as thousands separator:
the string documented in the seller.py download_stock example. -/
def rubSample : String :=
  String.mk ['2', '4', Char.ofNat 39, '5', '7', '0', '.', '0', '0', ' ', 'р', 'у', 'б', '.']

namespace Seller

/-- One element of the stocks list built by seller.py create_stocks. -/
structure SStock where
  offer_id : String
  stock : Int
deriving DecidableEq

/-- The first loop of seller.py create_stocks (lines 289-299): walk the
feed; when the record code is in the working offer id list, normalize the
quantity (a ValueError aborts the whole call: none), emit an entry and
remove the code from the working list before the rest of the feed is
processed.  Returns the matched entries in feed order together with the
final state of the offer id list. -/
def create_stocksAux : List Watch → List String → Option (List SStock × List String)
  | [], offer_ids => some ([], offer_ids)
  | w :: rest, offer_ids =>
    if w.code ∈ offer_ids then
      (normalizeQuantity w.quantity).bind fun q =>
        (create_stocksAux rest (offer_ids.erase w.code)).map fun pr =>
          (⟨w.code, q⟩ :: pr.1, pr.2)
    else create_stocksAux rest offer_ids

/-- seller.py create_stocks (lines 261-303): the matched pass above,
then the zero-fill loop over what is left of the offer id list.  The
second component is the final value of the caller's offer id list, which
the source mutates in place. -/
def create_stocks (feed : List Watch) (offer_ids : List String) :
    Option (List SStock × List String) :=
  (create_stocksAux feed offer_ids).map fun pr =>
    (pr.1 ++ pr.2.map (fun i => ⟨i, 0⟩), pr.2)

/-- One element of the prices list built by seller.py create_prices.
The price field is the string produced by price_conversion. -/
structure SPrice where
  auto_action_enabled : String
  currency_code : String
  offer_id : String
  old_price : String
  price : String
deriving DecidableEq

/-- seller.py create_prices (lines 306-342): walk the feed; when the
record code is in the offer id list emit a price entry.  The loop only
tests membership, it never removes; the second component returns the
final state of the offer id list to make that explicit.
price_conversion is total, so the function always returns. -/
def create_prices : List Watch → List String → List SPrice × List String
  | [], offer_ids => ([], offer_ids)
  | w :: rest, offer_ids =>
    if w.code ∈ offer_ids then
      let pr := create_prices rest offer_ids
      (⟨"UNKNOWN", "RUB", w.code, "0", price_conversion w.price⟩ :: pr.1, pr.2)
    else create_prices rest offer_ids

end Seller

namespace Market

/-- The items element of one market.py stock entry. -/
structure MItem where
  count : Int
  type : String
  updatedAt : String
deriving DecidableEq

/-- One element of the stocks list built by market.py create_stocks. -/
structure MStock where
  sku : String
  warehouseId : String
  items : List MItem
deriving DecidableEq

/-- The first loop of market.py create_stocks (lines 327-349): same join
as the seller variant, but every entry carries the warehouse id and the
date string.  The date is the value of datetime.datetime.utcnow() read
once at function entry and formatted; it is passed here as an explicit
argument because it is an input the source reads from the clock. -/
def create_stocksAux (wh date : String) :
    List Watch → List String → Option (List MStock × List String)
  | [], offer_ids => some ([], offer_ids)
  | w :: rest, offer_ids =>
    if w.code ∈ offer_ids then
      (normalizeQuantity w.quantity).bind fun q =>
        (create_stocksAux wh date rest (offer_ids.erase w.code)).map fun pr =>
          (⟨w.code, wh, [⟨q, "FIT", date⟩]⟩ :: pr.1, pr.2)
    else create_stocksAux wh date rest offer_ids

/-- market.py create_stocks (lines 283-365): matched pass, then the
zero-fill loop over what is left of the offer id list.  As in the seller
variant the second component is the final value of the caller's list. -/
def create_stocks (feed : List Watch) (offer_ids : List String)
    (wh date : String) : Option (List MStock × List String) :=
  (create_stocksAux wh date feed offer_ids).map fun pr =>
    (pr.1 ++ pr.2.map (fun i => ⟨i, wh, [⟨0, "FIT", date⟩]⟩), pr.2)

/-- The price element of one market.py price entry. -/
structure MPriceVal where
  value : Int
  currencyId : String
deriving DecidableEq

/-- One element of the prices list built by market.py create_prices. -/
structure MPrice where
  id : String
  price : MPriceVal
deriving DecidableEq

/-- market.py create_prices line 401: int(price_conversion(watch.get("Цена"))),
the digit string made by price_conversion parsed by the Python builtin
int, which raises ValueError when that string is empty. -/
def priceValue (price : String) : Option Int :=
  pyInt? (price_conversion price)

/-- market.py create_prices (lines 368-410): walk the feed; when the
record code is in the offer id list, parse the price (a ValueError aborts
the whole call: none) and emit an entry.  No removal from the offer id
list happens; the second component returns its final state to make that
explicit. -/
def create_prices : List Watch → List String → Option (List MPrice × List String)
  | [], offer_ids => some ([], offer_ids)
  | w :: rest, offer_ids =>
    if w.code ∈ offer_ids then
      (priceValue w.price).bind fun v =>
        (create_prices rest offer_ids).map fun pr =>
          (⟨w.code, ⟨v, "RUR"⟩⟩ :: pr.1, pr.2)
    else create_prices rest offer_ids

end Market

/-- seller.py divide (lines 363-382): for i in range(0, len(lst), n) yield
lst[i : i + n].  Each yielded slice is take n of drop i with i walking in
steps of n, which is the recursion below.  For n = 0 the Python range
raises ValueError before yielding anything; every claim about divide
assumes n > 0, where the branch guarding n = 0 is never taken. -/
def divide {α : Type} (lst : List α) (n : Nat) : List (List α) :=
  if h : lst.isEmpty ∨ n = 0 then [] else lst.take n :: divide (lst.drop n) n
termination_by lst.length
decreasing_by
  push_neg at h
  simp only [List.length_drop]
  have hne : lst ≠ [] := by simpa [List.isEmpty_iff] using h.1
  exact Nat.sub_lt (List.length_pos.mpr hne) (Nat.pos_of_ne_zero h.2)

namespace Seller

/-- One item of a page returned by the Ozon product list endpoint; the
pager only reads its offer_id. -/
structure Product where
  offer_id : String
deriving DecidableEq

/-- The result object of one call to seller.py get_product_list: the
items of the page, the reported total and the cursor for the next call. -/
structure PageResult where
  items : List Product
  total : Nat
  last_id : String
deriving DecidableEq

/-- Number of items in a list of pages. -/
def itemCount (ps : List PageResult) : Nat :=
  ((ps.map fun p => p.items.length)).sum

/-- The while loop of seller.py get_offer_ids (lines 98-106), with the
sequence of server responses given as a list consumed one element per
request: extend the accumulated product list with the page items, stop
with the accumulated list exactly when the total reported by that page
equals its length.  When the loop needs a response and the list holds no
more, the run is not modelled (none): the real loop would issue another
request and never reach the break on the given data. -/
def get_offer_idsLoop : List PageResult → List Product → Option (List Product)
  | [], _ => none
  | p :: rest, acc =>
    let acc2 := acc ++ p.items
    if p.total = acc2.length then some acc2 else get_offer_idsLoop rest acc2

/-- seller.py get_offer_ids (lines 76-110): run the paging loop from an
empty product list, then keep the offer_id of every product in order. -/
def get_offer_ids (pages : List PageResult) : Option (List String) :=
  (get_offer_idsLoop pages []).map fun l => l.map Product.offer_id

end Seller

namespace Market

/-- market.py main, lines 530-553: one try block runs the whole FBS
target sync (fetch ids, create and push stocks, push prices) and then the
whole DBS target sync; the three except clauses print and fall off the
end.  Each target sync is summarised by its outcome (ok, or error with
the raised exception).  The model returns the list of targets whose sync
was started, and the exception the handlers caught, when one was. -/
def main_run (fbs dbs : Except String Unit) : List String × Option String :=
  match fbs with
  | Except.error e => (["FBS"], some e)
  | Except.ok _ =>
    match dbs with
    | Except.error e => (["FBS", "DBS"], some e)
    | Except.ok _ => (["FBS", "DBS"], none)

/-- A market stock entry with its updatedAt field forgotten: the sku, the
warehouse and the counts of its items. -/
structure MStockStripped where
  sku : String
  warehouseId : String
  counts : List Int
deriving DecidableEq

/-- Forget the updatedAt field of a market stock entry. -/
def stripDate (s : MStock) : MStockStripped :=
  ⟨s.sku, s.warehouseId, s.items.map MItem.count⟩

/-- Forget the updatedAt fields of a whole create_stocks result. -/
def stripRun (pr : List MStock × List String) : List MStockStripped × List String :=
  (pr.1.map stripDate, pr.2)

end Market

namespace Seller

/-- The codes of the matched entries together with the left-over ids are a
permutation of the initial offer id list: each match trades one id of the
working list for one emitted entry. -/
theorem create_stocksAux_perm (F : List Watch) (O : List String)
    (m : List SStock) (r : List String)
    (h : create_stocksAux F O = some (m, r)) :
    (m.map SStock.offer_id ++ r).Perm O := by
  induction F generalizing O m r with
  | nil =>
    simp only [create_stocksAux, Option.some.injEq, Prod.mk.injEq] at h
    obtain ⟨hm, hr⟩ := h
    subst hm; subst hr; simp
  | cons w rest ih =>
    by_cases hc : w.code ∈ O
    · simp only [create_stocksAux, if_pos hc] at h
      cases hq : normalizeQuantity w.quantity with
      | none => simp [hq] at h
      | some q =>
        cases hrec : create_stocksAux rest (O.erase w.code) with
        | none => simp [hq, hrec] at h
        | some pr =>
          obtain ⟨m1, r1⟩ := pr
          simp only [hq, hrec, Option.some_bind, Option.map_some', Option.some.injEq,
            Prod.mk.injEq] at h
          obtain ⟨hm, hr⟩ := h
          subst hm; subst hr
          have hperm := ih (O.erase w.code) m1 r1 hrec
          simpa using (hperm.cons w.code).trans (List.perm_cons_erase hc).symm
    · simp only [create_stocksAux, if_neg hc] at h
      exact ih O m r h

/-- The left-over ids are a sublist (hence in original order) of the
initial offer id list, and the matched codes follow feed order. -/
theorem create_stocksAux_sublist (F : List Watch) (O : List String)
    (m : List SStock) (r : List String)
    (h : create_stocksAux F O = some (m, r)) :
    r.Sublist O ∧ (m.map SStock.offer_id).Sublist (F.map Watch.code) := by
  induction F generalizing O m r with
  | nil =>
    simp only [create_stocksAux, Option.some.injEq, Prod.mk.injEq] at h
    obtain ⟨hm, hr⟩ := h
    subst hm; subst hr; simp
  | cons w rest ih =>
    by_cases hc : w.code ∈ O
    · simp only [create_stocksAux, if_pos hc] at h
      cases hq : normalizeQuantity w.quantity with
      | none => simp [hq] at h
      | some q =>
        cases hrec : create_stocksAux rest (O.erase w.code) with
        | none => simp [hq, hrec] at h
        | some pr =>
          obtain ⟨m1, r1⟩ := pr
          simp only [hq, hrec, Option.some_bind, Option.map_some', Option.some.injEq,
            Prod.mk.injEq] at h
          obtain ⟨hm, hr⟩ := h
          subst hm; subst hr
          obtain ⟨hs1, hs2⟩ := ih (O.erase w.code) m1 r1 hrec
          refine ⟨hs1.trans (List.erase_sublist w.code O), ?_⟩
          simpa using List.Sublist.cons₂ w.code hs2
    · simp only [create_stocksAux, if_neg hc] at h
      obtain ⟨hs1, hs2⟩ := ih O m r h
      exact ⟨hs1, hs2.trans (List.sublist_cons_self w.code (rest.map Watch.code))⟩

/-- After the matched pass no code of the feed is left in the working
list: a surviving id would have been matched (and removed) at the first
feed record carrying it. -/
theorem create_stocksAux_no_match_left (F : List Watch) (O : List String)
    (m : List SStock) (r : List String) (hnd : O.Nodup)
    (h : create_stocksAux F O = some (m, r)) :
    ∀ w ∈ F, w.code ∉ r := by
  induction F generalizing O m r with
  | nil => intro w hw; cases hw
  | cons w rest ih =>
    by_cases hc : w.code ∈ O
    · simp only [create_stocksAux, if_pos hc] at h
      cases hq : normalizeQuantity w.quantity with
      | none => simp [hq] at h
      | some q =>
        cases hrec : create_stocksAux rest (O.erase w.code) with
        | none => simp [hq, hrec] at h
        | some pr =>
          obtain ⟨m1, r1⟩ := pr
          simp only [hq, hrec, Option.some_bind, Option.map_some', Option.some.injEq,
            Prod.mk.injEq] at h
          obtain ⟨hm, hr⟩ := h
          subst hm; subst hr
          intro v hv
          cases hv with
          | head =>
            intro hmem
            have hsub := (create_stocksAux_sublist rest (O.erase w.code) m1 r1 hrec).1
            have : w.code ∈ O.erase w.code := hsub.subset hmem
            exact ((hnd.mem_erase_iff).mp this).1 rfl
          | tail _ hv2 =>
            exact ih (O.erase w.code) m1 r1 (hnd.erase w.code) hrec v hv2
    · simp only [create_stocksAux, if_neg hc] at h
      intro v hv
      cases hv with
      | head =>
        intro hmem
        have hsub := (create_stocksAux_sublist rest O m r h).1
        exact hc (hsub.subset hmem)
      | tail _ hv2 => exact ih O m r hnd h v hv2

/-- When the feed never matches the working list, create_prices emits
nothing. -/
theorem create_prices_nil_of_no_match (F : List Watch) (ids : List String)
    (hnone : ∀ w ∈ F, w.code ∉ ids) :
    (create_prices F ids).1 = [] := by
  induction F with
  | nil => simp [create_prices]
  | cons w rest ih =>
    have hw : w.code ∉ ids := hnone w (List.mem_cons_self w rest)
    simp only [create_prices, if_neg hw]
    exact ih fun v hv => hnone v (List.mem_cons_of_mem w hv)

end Seller

namespace Market

/-- Market analogue of the seller permutation lemma. -/
theorem create_stocksAux_perm_market (wh date : String) (F : List Watch)
    (O : List String) (m : List MStock) (r : List String)
    (h : create_stocksAux wh date F O = some (m, r)) :
    (m.map MStock.sku ++ r).Perm O := by
  induction F generalizing O m r with
  | nil =>
    simp only [create_stocksAux, Option.some.injEq, Prod.mk.injEq] at h
    obtain ⟨hm, hr⟩ := h
    subst hm; subst hr; simp
  | cons w rest ih =>
    by_cases hc : w.code ∈ O
    · simp only [create_stocksAux, if_pos hc] at h
      cases hq : normalizeQuantity w.quantity with
      | none => simp [hq] at h
      | some q =>
        cases hrec : create_stocksAux wh date rest (O.erase w.code) with
        | none => simp [hq, hrec] at h
        | some pr =>
          obtain ⟨m1, r1⟩ := pr
          simp only [hq, hrec, Option.some_bind, Option.map_some', Option.some.injEq,
            Prod.mk.injEq] at h
          obtain ⟨hm, hr⟩ := h
          subst hm; subst hr
          have hperm := ih (O.erase w.code) m1 r1 hrec
          simpa using (hperm.cons w.code).trans (List.perm_cons_erase hc).symm
    · simp only [create_stocksAux, if_neg hc] at h
      exact ih O m r h

/-- Market analogue of the seller sublist lemma. -/
theorem create_stocksAux_sublist_market (wh date : String) (F : List Watch)
    (O : List String) (m : List MStock) (r : List String)
    (h : create_stocksAux wh date F O = some (m, r)) :
    r.Sublist O ∧ (m.map MStock.sku).Sublist (F.map Watch.code) := by
  induction F generalizing O m r with
  | nil =>
    simp only [create_stocksAux, Option.some.injEq, Prod.mk.injEq] at h
    obtain ⟨hm, hr⟩ := h
    subst hm; subst hr; simp
  | cons w rest ih =>
    by_cases hc : w.code ∈ O
    · simp only [create_stocksAux, if_pos hc] at h
      cases hq : normalizeQuantity w.quantity with
      | none => simp [hq] at h
      | some q =>
        cases hrec : create_stocksAux wh date rest (O.erase w.code) with
        | none => simp [hq, hrec] at h
        | some pr =>
          obtain ⟨m1, r1⟩ := pr
          simp only [hq, hrec, Option.some_bind, Option.map_some', Option.some.injEq,
            Prod.mk.injEq] at h
          obtain ⟨hm, hr⟩ := h
          subst hm; subst hr
          obtain ⟨hs1, hs2⟩ := ih (O.erase w.code) m1 r1 hrec
          refine ⟨hs1.trans (List.erase_sublist w.code O), ?_⟩
          simpa using List.Sublist.cons₂ w.code hs2
    · simp only [create_stocksAux, if_neg hc] at h
      obtain ⟨hs1, hs2⟩ := ih O m r h
      exact ⟨hs1, hs2.trans (List.sublist_cons_self w.code (rest.map Watch.code))⟩

end Market

/-- An ASCII digit is not a whitespace character. -/
theorem digit_not_whitespace (c : Char) (h : c.isDigit = true) :
    c.isWhitespace = false := by
  by_contra hw
  rw [Bool.not_eq_false] at hw
  simp only [Char.isWhitespace, Bool.or_eq_true, decide_eq_true_eq] at hw
  rcases hw with ((h1 | h1) | h1) | h1 <;> (subst h1; exact absurd h (by decide))

/-- dropWhile changes nothing when no element satisfies the test. -/
theorem dropWhile_eq_self_of_all {p : Char → Bool} (l : List Char)
    (h : ∀ c ∈ l, p c = false) : l.dropWhile p = l := by
  cases l with
  | nil => rfl
  | cons c cs => simp [List.dropWhile_cons, h c (List.mem_cons_self c cs)]

/-- Whitespace stripping changes nothing on a whitespace-free list. -/
theorem stripSpaces_eq_self (l : List Char) (h : ∀ c ∈ l, c.isWhitespace = false) :
    stripSpaces l = l := by
  unfold stripSpaces
  rw [dropWhile_eq_self_of_all l h,
    dropWhile_eq_self_of_all l.reverse (fun c hc => h c (List.mem_reverse.mp hc)),
    List.reverse_reverse]

/-- The Python builtin int accepts every nonempty string of ASCII digits
and returns its base-10 value. -/
theorem pyInt?_digits (c : Char) (cs : List Char)
    (hd : ∀ x ∈ c :: cs, x.isDigit = true) :
    pyInt? (String.mk (c :: cs)) = some (digitsVal (c :: cs)) := by
  have hws : ∀ x ∈ c :: cs, x.isWhitespace = false :=
    fun x hx => digit_not_whitespace x (hd x hx)
  have hcd := hd c (List.mem_cons_self c cs)
  have hc1 : c ≠ '-' := by intro hEq; rw [hEq] at hcd; exact absurd hcd (by decide)
  have hc2 : c ≠ '+' := by intro hEq; rw [hEq] at hcd; exact absurd hcd (by decide)
  have hall : (c :: cs).all Char.isDigit = true := List.all_eq_true.mpr hd
  unfold pyInt?
  rw [show (String.mk (c :: cs)).data = c :: cs from rfl, stripSpaces_eq_self _ hws]
  simp [pyIntAux, hc1, hc2, hall]

namespace Market

/-- The date string only lands in the updatedAt fields: up to those
fields, the matched pass does not depend on it. -/
theorem create_stocksAux_date_invariant (wh d d2 : String) (F : List Watch)
    (O : List String) :
    (create_stocksAux wh d F O).map stripRun
      = (create_stocksAux wh d2 F O).map stripRun := by
  induction F generalizing O with
  | nil => simp [create_stocksAux]
  | cons w rest ih =>
    by_cases hc : w.code ∈ O
    · simp only [create_stocksAux, if_pos hc]
      cases hq : normalizeQuantity w.quantity with
      | none => simp
      | some q =>
        have ihe := ih (O.erase w.code)
        cases h1 : create_stocksAux wh d rest (O.erase w.code) with
        | none =>
          cases h2 : create_stocksAux wh d2 rest (O.erase w.code) with
          | none => simp
          | some pr2 => rw [h1, h2] at ihe; simp at ihe
        | some pr1 =>
          cases h2 : create_stocksAux wh d2 rest (O.erase w.code) with
          | none => rw [h1, h2] at ihe; simp at ihe
          | some pr2 =>
            rw [h1, h2] at ihe
            obtain ⟨pm1, pr1r⟩ := pr1
            obtain ⟨pm2, pr2r⟩ := pr2
            simp only [Option.map_some', Option.some.injEq, stripRun, Prod.mk.injEq] at ihe
            simp [stripRun, stripDate, ihe.1, ihe.2]
    · simp only [create_stocksAux, if_neg hc]
      exact ih O

/-- Date invariance extended to the zero-fill pass. -/
theorem create_stocks_date_invariant (F : List Watch) (O : List String)
    (wh d d2 : String) :
    (create_stocks F O wh d).map stripRun = (create_stocks F O wh d2).map stripRun := by
  have haux := create_stocksAux_date_invariant wh d d2 F O
  unfold create_stocks
  cases h1 : create_stocksAux wh d F O with
  | none =>
    cases h2 : create_stocksAux wh d2 F O with
    | none => simp
    | some pr2 => rw [h1, h2] at haux; simp at haux
  | some pr1 =>
    cases h2 : create_stocksAux wh d2 F O with
    | none => rw [h1, h2] at haux; simp at haux
    | some pr2 =>
      rw [h1, h2] at haux
      obtain ⟨pm1, pr1r⟩ := pr1
      obtain ⟨pm2, pr2r⟩ := pr2
      simp only [Option.map_some', Option.some.injEq, stripRun, Prod.mk.injEq] at haux
      simp [stripRun, stripDate, haux.1, haux.2]

end Market

namespace Seller

/-- itemCount over a cons. -/
theorem itemCount_cons (p : PageResult) (ps : List PageResult) :
    itemCount (p :: ps) = p.items.length + itemCount ps := by
  simp [itemCount]

/-- itemCount of no pages. -/
theorem itemCount_nil : itemCount [] = 0 := rfl

/-- The paging loop, started with any accumulator: given that every page
reports total N, and that the accumulated length first reaches N exactly
after page n + 1, the loop stops there and returns the accumulator
followed by the items of the pages it requested, in order. -/
theorem get_offer_idsLoop_spec (ps : List PageResult) (acc : List Product)
    (N n : Nat) (hall : ∀ p ∈ ps, p.total = N) (hn : n < ps.length)
    (hstop : acc.length + itemCount (ps.take (n + 1)) = N)
    (hfirst : ∀ m, m < n → acc.length + itemCount (ps.take (m + 1)) ≠ N) :
    get_offer_idsLoop ps acc
      = some (acc ++ (((ps.take (n + 1)).map PageResult.items)).flatten) := by
  induction ps generalizing acc n with
  | nil => exact absurd hn (Nat.not_lt_zero n)
  | cons p rest ih =>
    have hpN : p.total = N := hall p (List.mem_cons_self p rest)
    cases n with
    | zero =>
      have hlen : p.total = acc.length + p.items.length := by
        rw [hpN, ← hstop]
        simp [List.take_succ_cons, List.take_zero, itemCount_cons, itemCount_nil]
      simp [get_offer_idsLoop, hlen]
    | succ m =>
      have hne : p.total ≠ acc.length + p.items.length := by
        rw [hpN]
        intro hEq
        refine hfirst 0 (Nat.succ_pos m) ?_
        simp only [List.take_succ_cons, List.take_zero, itemCount_cons, itemCount_nil]
        omega
      have hstep : get_offer_idsLoop (p :: rest) acc
          = get_offer_idsLoop rest (acc ++ p.items) := by
        simp [get_offer_idsLoop, hne]
      rw [hstep]
      have hall2 : ∀ q ∈ rest, q.total = N :=
        fun q hq => hall q (List.mem_cons_of_mem p hq)
      have hn2 : m < rest.length := Nat.lt_of_succ_lt_succ hn
      have hstop2 : (acc ++ p.items).length + itemCount (rest.take (m + 1)) = N := by
        have h0 := hstop
        simp only [List.take_succ_cons, itemCount_cons] at h0
        simp only [List.length_append]
        omega
      have hfirst2 : ∀ j, j < m →
          (acc ++ p.items).length + itemCount (rest.take (j + 1)) ≠ N := by
        intro j hj
        have h0 := hfirst (j + 1) (Nat.succ_lt_succ hj)
        simp only [List.take_succ_cons, itemCount_cons] at h0
        simp only [List.length_append]
        omega
      rw [ih (acc ++ p.items) m hall2 hn2 hstop2 hfirst2]
      simp

end Seller

/-- market.py price parsing fails exactly when the digit remainder kept
by price_conversion is empty. -/
theorem priceValue_none_iff (s : String) :
    Market.priceValue s = none ↔ price_conversion s = "" := by
  constructor
  · intro h
    cases hfl : (s.data.takeWhile (fun c => c ≠ '.')).filter Char.isDigit with
    | nil =>
      unfold price_conversion
      rw [hfl]
    | cons c cs =>
      have hd : ∀ x ∈ c :: cs, x.isDigit = true := by
        intro x hx
        rw [← hfl] at hx
        exact List.of_mem_filter hx
      have hsome := pyInt?_digits c cs hd
      unfold Market.priceValue price_conversion at h
      rw [hfl, hsome] at h
      cases h
  · intro h
    unfold Market.priceValue
    rw [h]
    rfl

/-- Every chunk yielded by divide has length at most n (fuel form: the
fuel N bounds the input length, giving the induction measure). -/
theorem divide_chunk_le_fuel {α : Type} (N : Nat) :
    ∀ (lst : List α) (n : Nat), lst.length ≤ N → ∀ c ∈ divide lst n, c.length ≤ n := by
  induction N with
  | zero =>
    intro lst n hlen c hc
    have hnil : lst = [] := List.length_eq_zero.mp (Nat.le_zero.mp hlen)
    subst hnil
    rw [divide] at hc
    simp at hc
  | succ N ih =>
    intro lst n hlen c hc
    rw [divide] at hc
    split at hc
    · cases hc
    · rename_i hcond
      push_neg at hcond
      cases hc with
      | head => simpa using List.length_take_le n lst
      | tail _ h2 =>
        refine ih (lst.drop n) n ?_ c h2
        have hn0 : n ≠ 0 := hcond.2
        simp only [List.length_drop]
        omega

/-- The chunks yielded by divide concatenate back to the input (fuel
form). -/
theorem divide_flatten_fuel {α : Type} (N : Nat) :
    ∀ (lst : List α) (n : Nat), lst.length ≤ N → n ≠ 0 → (divide lst n).flatten = lst := by
  induction N with
  | zero =>
    intro lst n hlen hn
    have hnil : lst = [] := List.length_eq_zero.mp (Nat.le_zero.mp hlen)
    subst hnil
    rw [divide]
    simp
  | succ N ih =>
    intro lst n hlen hn
    rw [divide]
    split
    · rename_i hcond
      rcases hcond with hE | hE
      · rw [List.isEmpty_iff] at hE
        rw [hE]
        rfl
      · exact absurd hE hn
    · rename_i hcond
      push_neg at hcond
      rw [List.flatten_cons, ih (lst.drop n) n ?_ hn, List.take_append_drop]
      simp only [List.length_drop]
      have hpos : 0 < n := Nat.pos_of_ne_zero hn
      omega

/-- C1: for every feed F and duplicate-free offer id list O, a returning
create_stocks call (both variants) yields exactly as many entries as O
has ids, whose codes are a permutation of O (hence exactly the set O,
with no duplicate and no omission); and a feed record whose code is not
in the current working list, in particular one matching an already
removed id, is skipped and contributes no entry. -/
theorem create_stocks_exact_cover (F : List Watch) (O : List String) (hnd : O.Nodup) :
    (∀ stocks rem, Seller.create_stocks F O = some (stocks, rem) →
      stocks.length = O.length ∧ (stocks.map Seller.SStock.offer_id).Perm O ∧
      (stocks.map Seller.SStock.offer_id).Nodup) ∧
    (∀ wh d stocks rem, Market.create_stocks F O wh d = some (stocks, rem) →
      stocks.length = O.length ∧ (stocks.map Market.MStock.sku).Perm O ∧
      (stocks.map Market.MStock.sku).Nodup) ∧
    (∀ (w : Watch) (F2 : List Watch) (O2 : List String), w.code ∉ O2 →
      Seller.create_stocksAux (w :: F2) O2 = Seller.create_stocksAux F2 O2) := by
  refine ⟨?_, ?_, ?_⟩
  · intro stocks rem h
    unfold Seller.create_stocks at h
    cases haux : Seller.create_stocksAux F O with
    | none => rw [haux] at h; cases h
    | some pr =>
      obtain ⟨m, r⟩ := pr
      rw [haux] at h
      simp only [Option.map_some', Option.some.injEq, Prod.mk.injEq] at h
      obtain ⟨hs, hr⟩ := h
      subst hs
      have hmap : ((m ++ r.map fun i => Seller.SStock.mk i 0).map Seller.SStock.offer_id)
          = m.map Seller.SStock.offer_id ++ r := by
        rw [List.map_append, List.map_map,
          show (Seller.SStock.offer_id ∘ fun i => Seller.SStock.mk i 0) = id from rfl,
          List.map_id]
      have hperm := Seller.create_stocksAux_perm F O m r haux
      refine ⟨?_, by rw [hmap]; exact hperm, by rw [hmap]; exact hperm.symm.nodup hnd⟩
      have := hperm.length_eq
      simp only [List.length_append, List.length_map] at this ⊢
      omega
  · intro wh d stocks rem h
    unfold Market.create_stocks at h
    cases haux : Market.create_stocksAux wh d F O with
    | none => rw [haux] at h; cases h
    | some pr =>
      obtain ⟨m, r⟩ := pr
      rw [haux] at h
      simp only [Option.map_some', Option.some.injEq, Prod.mk.injEq] at h
      obtain ⟨hs, hr⟩ := h
      subst hs
      have hmap : ((m ++ r.map fun i =>
            Market.MStock.mk i wh [Market.MItem.mk 0 "FIT" d]).map Market.MStock.sku)
          = m.map Market.MStock.sku ++ r := by
        rw [List.map_append, List.map_map,
          show (Market.MStock.sku ∘ fun i =>
            Market.MStock.mk i wh [Market.MItem.mk 0 "FIT" d]) = id from rfl,
          List.map_id]
      have hperm := Market.create_stocksAux_perm_market wh d F O m r haux
      refine ⟨?_, by rw [hmap]; exact hperm, by rw [hmap]; exact hperm.symm.nodup hnd⟩
      have := hperm.length_eq
      simp only [List.length_append, List.length_map] at this ⊢
      omega
  · intro w F2 O2 hw
    simp [Seller.create_stocksAux, hw]

/-- Witness for C1 at a concrete input. -/
theorem create_stocks_exact_cover_witness :
    ([(⟨"A", 5⟩ : Seller.SStock), ⟨"B", 0⟩].map Seller.SStock.offer_id).Perm ["A", "B"] :=
  ((create_stocks_exact_cover [⟨"A", "5", ""⟩] ["A", "B"] (by decide)).1
    [⟨"A", 5⟩, ⟨"B", 0⟩] ["B"] (by decide)).2.1

/-- C2: the output of create_stocks is the matched entries in feed order
followed by the zero-fill entries; the zero-fill ids are what is left of
the offer id list, a sublist of it (original order), and the matched
codes are a sublist of the feed codes (feed order); on the spec scenario
O = A,B,C and F = (A with quantity above ten), (B with quantity one) the
output is A at 100, B at 0, C at 0. -/
theorem create_stocks_output_order (F : List Watch) (O : List String) :
    (∀ m r, Seller.create_stocksAux F O = some (m, r) →
      Seller.create_stocks F O = some (m ++ r.map (fun i => ⟨i, 0⟩), r) ∧
      r.Sublist O ∧ (m.map Seller.SStock.offer_id).Sublist (F.map Watch.code)) ∧
    (∀ wh d m r, Market.create_stocksAux wh d F O = some (m, r) →
      Market.create_stocks F O wh d
          = some (m ++ r.map (fun i => ⟨i, wh, [⟨0, "FIT", d⟩]⟩), r) ∧
      r.Sublist O ∧ (m.map Market.MStock.sku).Sublist (F.map Watch.code)) ∧
    Seller.create_stocks [⟨"A", ">10", ""⟩, ⟨"B", "1", ""⟩] ["A", "B", "C"]
      = some ([⟨"A", 100⟩, ⟨"B", 0⟩, ⟨"C", 0⟩], ["C"]) := by
  refine ⟨?_, ?_, by decide⟩
  · intro m r h
    exact ⟨by simp [Seller.create_stocks, h],
      (Seller.create_stocksAux_sublist F O m r h).1,
      (Seller.create_stocksAux_sublist F O m r h).2⟩
  · intro wh d m r h
    exact ⟨by simp [Market.create_stocks, h],
      (Market.create_stocksAux_sublist_market wh d F O m r h).1,
      (Market.create_stocksAux_sublist_market wh d F O m r h).2⟩

/-- Witness for C2 at a concrete input. -/
theorem create_stocks_output_order_witness :
    (["C"] : List String).Sublist ["A", "B", "C"] :=
  ((create_stocks_output_order [⟨"A", ">10", ""⟩, ⟨"B", "1", ""⟩] ["A", "B", "C"]).1
    [⟨"A", 100⟩, ⟨"B", 0⟩] ["C"] (by decide)).2.1

/-- C3: the quantity mapping used by create_stocks sends the literal
text above-ten to 100, the literal text one to 0, and any other text the
Python int accepts to the integer it denotes; it is defined on all these
inputs, and create_stocks applies it to matched feed records. -/
theorem quantity_normalization_policy :
    normalizeQuantity ">10" = some 100 ∧ normalizeQuantity "1" = some 0 ∧
    normalizeQuantity "7" = some 7 ∧ normalizeQuantity "0" = some 0 ∧
    (∀ s k, s ≠ ">10" → s ≠ "1" → pyInt? s = some k → normalizeQuantity s = some k) ∧
    Seller.create_stocks [⟨"X", ">10", ""⟩] ["X"] = some ([⟨"X", 100⟩], []) ∧
    Seller.create_stocks [⟨"X", "1", ""⟩] ["X"] = some ([⟨"X", 0⟩], []) := by
  refine ⟨by decide, by decide, by decide, by decide, ?_, by decide, by decide⟩
  intro s k h1 h2 hk
  rw [normalizeQuantity, if_neg h1, if_neg h2]
  exact hk

/-- Witness for C3 at a concrete input. -/
theorem quantity_normalization_policy_witness :
    normalizeQuantity "5" = some 5 :=
  quantity_normalization_policy.2.2.2.2.1 "5" 5 (by decide) (by decide) (by decide)

/-- C4 counterexample: at the input abc.00 the seller.py price
normalization does not fail; price_conversion returns the empty string as
an ordinary value, and seller.py create_prices happily embeds that empty
string in its payload.  Only the market.py variant, which applies the
Python int to the digit remainder, raises there. -/
theorem price_conversion_returns_empty_string :
    price_conversion "abc.00" = "" ∧
    (Seller.create_prices [⟨"A", "5", "abc.00"⟩] ["A"]).1
      = [⟨"UNKNOWN", "RUB", "A", "0", ""⟩] := by
  decide

/-- C4 amended: price normalization keeps the ASCII digits of the part
before the first period, as a string; the market.py variant parses that
digit string as a base-10 integer and raises exactly when it is empty,
while the seller.py variant returns the digit string itself (the empty
string, not an error, when no digit remains). -/
theorem price_normalization_behavior :
    price_conversion rubSample = "24570" ∧
    price_conversion "1,234.56" = "1234" ∧
    Market.priceValue rubSample = some 24570 ∧
    Market.priceValue "1,234.56" = some 1234 ∧
    Market.priceValue "abc.00" = none ∧
    ∀ s : String, Market.priceValue s = none ↔ price_conversion s = "" :=
  ⟨by decide, by decide, by decide, by decide, by decide, priceValue_none_iff⟩

/-- Witness for the amended C4 at a concrete input. -/
theorem price_normalization_behavior_witness :
    Market.priceValue "xyz" = none ↔ price_conversion "xyz" = "" :=
  price_normalization_behavior.2.2.2.2.2 "xyz"

/-- C5: for every list and every n above zero, divide yields contiguous
chunks of length at most n whose concatenation is the input; the empty
list yields no chunks, nine elements in chunks of three give three full
chunks, seven elements give chunks of lengths three, three, one. -/
theorem divide_batches_spec {α : Type} (lst : List α) (n : Nat) (hn : 0 < n) :
    (∀ c ∈ divide lst n, c.length ≤ n) ∧ (divide lst n).flatten = lst ∧
    divide ([] : List α) n = [] ∧
    (divide (List.range 9) 3).map List.length = [3, 3, 3] ∧
    (divide (List.range 7) 3).map List.length = [3, 3, 1] := by
  refine ⟨divide_chunk_le_fuel lst.length lst n (Nat.le_refl _),
    divide_flatten_fuel lst.length lst n (Nat.le_refl _) (Nat.pos_iff_ne_zero.mp hn),
    ?_, by simp [divide], by simp [divide]⟩
  rw [divide]
  simp

/-- Witness for C5 at a concrete input. -/
theorem divide_batches_spec_witness :
    (divide [10, 20, 30, 40, 50, 60, 70] 3).flatten = [10, 20, 30, 40, 50, 60, 70] :=
  (divide_batches_spec [10, 20, 30, 40, 50, 60, 70] 3 (by decide)).2.1

/-- C6: create_prices leaves the offer id list exactly as it was, in both
variants: the loop only tests membership and never removes. -/
theorem create_prices_preserves_offer_ids (F : List Watch) (O : List String) :
    (Seller.create_prices F O).2 = O ∧
    (∀ ps ids, Market.create_prices F O = some (ps, ids) → ids = O) := by
  constructor
  · induction F with
    | nil => rfl
    | cons w rest ih =>
      by_cases hc : w.code ∈ O
      · simpa [Seller.create_prices, hc] using ih
      · simpa [Seller.create_prices, hc] using ih
  · induction F with
    | nil =>
      intro ps ids h
      simp only [Market.create_prices, Option.some.injEq, Prod.mk.injEq] at h
      exact h.2.symm
    | cons w rest ih =>
      intro ps ids h
      by_cases hc : w.code ∈ O
      · simp only [Market.create_prices, if_pos hc] at h
        cases hv : Market.priceValue w.price with
        | none => rw [hv] at h; simp at h
        | some v =>
          rw [hv] at h
          cases hrec : Market.create_prices rest O with
          | none => simp [hrec] at h
          | some pr =>
            obtain ⟨ps1, ids1⟩ := pr
            simp only [hrec, Option.some_bind, Option.map_some', Option.some.injEq,
              Prod.mk.injEq] at h
            exact h.2 ▸ ih ps1 ids1 hrec
      · simp only [Market.create_prices, if_neg hc] at h
        exact ih ps ids h

/-- Witness for C6 at a concrete input. -/
theorem create_prices_preserves_offer_ids_witness :
    (["A", "B"] : List String) = ["A", "B"] :=
  (create_prices_preserves_offer_ids [⟨"A", "5", "7.00"⟩] ["A", "B"]).2
    [⟨"A", ⟨7, "RUR"⟩⟩] ["A", "B"] (by decide)

/-- C7 counterexample: the market.py create_stocks embeds the clock
reading taken at call time in every entry; two runs over the same feed,
the same warehouse and a fresh copy of the same offer id list, made at
different times, return different outputs (their updatedAt fields
differ), so the two calls of the claim are not identical. -/
theorem market_create_stocks_time_dependent :
    Market.create_stocks [] ["A"] "wh" "2023-08-13T19:50:21Z"
      ≠ Market.create_stocks [] ["A"] "wh" "2023-08-13T19:50:22Z" := by
  decide

/-- C7 amended: seller.py create_stocks is a pure function of feed and
offer id list, so repeated runs on fresh copies of the same inputs agree;
market.py create_stocks agrees across runs only when the two clock
readings coincide, and with different readings the outputs agree on
everything except the updatedAt fields. -/
theorem create_stocks_idempotent_modulo_timestamp (F : List Watch) (O : List String)
    (wh d d2 : String) :
    Seller.create_stocks F O = Seller.create_stocks F O ∧
    Market.create_stocks F O wh d = Market.create_stocks F O wh d ∧
    (Market.create_stocks F O wh d).map Market.stripRun
      = (Market.create_stocks F O wh d2).map Market.stripRun :=
  ⟨rfl, rfl, Market.create_stocks_date_invariant F O wh d d2⟩

/-- Witness for the amended C7 at a concrete input. -/
theorem create_stocks_idempotent_modulo_timestamp_witness :
    (Market.create_stocks [] ["A"] "w" "t1").map Market.stripRun
      = (Market.create_stocks [] ["A"] "w" "t2").map Market.stripRun :=
  (create_stocks_idempotent_modulo_timestamp [] ["A"] "w" "t1" "t2").2.2

/-- C8: when every page reports total N and the cumulative item count
first reaches exactly N after page n + 1, the seller.py pager stops
there and returns the offer_id of every retrieved item in retrieval
order. -/
theorem get_offer_ids_pager_spec (ps : List Seller.PageResult) (N n : Nat)
    (hall : ∀ p ∈ ps, p.total = N) (hn : n < ps.length)
    (hstop : Seller.itemCount (ps.take (n + 1)) = N)
    (hfirst : ∀ m, m < n → Seller.itemCount (ps.take (m + 1)) ≠ N) :
    Seller.get_offer_ids ps
      = some ((((ps.take (n + 1)).map Seller.PageResult.items).flatten).map
          Seller.Product.offer_id) := by
  have h := Seller.get_offer_idsLoop_spec ps [] N n hall hn
    (by simpa using hstop) (by intro m hm; simpa using hfirst m hm)
  rw [Seller.get_offer_ids, h]
  simp

/-- Witness for C8 at a concrete input: two pages of totals 3 holding
two items and then one. -/
theorem get_offer_ids_pager_spec_witness :
    Seller.get_offer_ids
        [⟨[⟨"136748"⟩, ⟨"168448"⟩], 3, "p"⟩, ⟨[⟨"528148"⟩], 3, ""⟩]
      = some ["136748", "168448", "528148"] := by
  have h := get_offer_ids_pager_spec
    [⟨[⟨"136748"⟩, ⟨"168448"⟩], 3, "p"⟩, ⟨[⟨"528148"⟩], 3, ""⟩] 3 1
    (by decide) (by decide) (by decide)
    (by intro m hm; have hm0 : m = 0 := Nat.lt_one_iff.mp hm; subst hm0; decide)
  simpa using h

/-- C9 counterexample: in the market.py main model, when the first (FBS)
target sync raises, the run reaches the except clauses with only the
first target attempted: the second (DBS) target sync is not executed,
contradicting the claim that it still is. -/
theorem market_main_skips_second_target :
    (Market.main_run (Except.error "HTTPError") (Except.ok ())).1 = ["FBS"] ∧
    "DBS" ∉ (Market.main_run (Except.error "HTTPError") (Except.ok ())).1 := by
  decide

/-- C9 amended: both target syncs sit in one try block, so the DBS sync
is executed exactly when the FBS sync finishes without raising; a failure
in the FBS sync aborts the block, is only printed by the handlers, and
the DBS sync is skipped. -/
theorem market_main_second_target_iff_first_ok (s1 s2 : Except String Unit) :
    ("DBS" ∈ (Market.main_run s1 s2).1 ↔ s1 = Except.ok ()) ∧
    "FBS" ∈ (Market.main_run s1 s2).1 ∧
    ∀ e, s1 = Except.error e → (Market.main_run s1 s2).2 = some e := by
  cases s1 with
  | error e =>
    refine ⟨?_, ?_, ?_⟩
    · show "DBS" ∈ ["FBS"] ↔ Except.error e = Except.ok ()
      exact ⟨fun hm => absurd hm (by decide), fun hh => by cases hh⟩
    · show "FBS" ∈ ["FBS"]
      decide
    · intro e2 h
      injection h with he
      subst he
      rfl
  | ok u =>
    cases u
    cases s2 with
    | error e =>
      refine ⟨?_, ?_, fun e2 h => by cases h⟩
      · show "DBS" ∈ ["FBS", "DBS"] ↔ Except.ok () = Except.ok ()
        exact ⟨fun _ => rfl, fun _ => by decide⟩
      · show "FBS" ∈ ["FBS", "DBS"]
        decide
    | ok u2 =>
      cases u2
      refine ⟨?_, ?_, fun e2 h => by cases h⟩
      · show "DBS" ∈ ["FBS", "DBS"] ↔ Except.ok () = Except.ok ()
        exact ⟨fun _ => rfl, fun _ => by decide⟩
      · show "FBS" ∈ ["FBS", "DBS"]
        decide

/-- Witness for the amended C9 at a concrete input. -/
theorem market_main_second_target_iff_first_ok_witness :
    (Market.main_run (Except.error "boom") (Except.ok ())).2 = some "boom" :=
  (market_main_second_target_iff_first_ok (Except.error "boom") (Except.ok ())).2.2
    "boom" rfl

/-- C10: seller.py main reuses the offer id list mutated by
create_stocks for the price phase; after a returning create_stocks call
on a duplicate-free list, the left-over list holds exactly the ids no
feed record matched, so the following create_prices over the same feed
matches nothing and returns the empty payload. -/
theorem stocks_then_prices_empty (F : List Watch) (O : List String)
    (stocks : List Seller.SStock) (rem : List String) (hnd : O.Nodup)
    (h : Seller.create_stocks F O = some (stocks, rem)) :
    (Seller.create_prices F rem).1 = [] := by
  unfold Seller.create_stocks at h
  cases haux : Seller.create_stocksAux F O with
  | none => rw [haux] at h; cases h
  | some pr =>
    obtain ⟨m, r⟩ := pr
    rw [haux] at h
    simp only [Option.map_some', Option.some.injEq, Prod.mk.injEq] at h
    have hrem : r = rem := h.2
    subst hrem
    exact Seller.create_prices_nil_of_no_match F r
      (Seller.create_stocksAux_no_match_left F O m r hnd haux)

/-- Witness for C10 at a concrete input. -/
theorem stocks_then_prices_empty_witness :
    (Seller.create_prices [⟨"A", ">10", "9.00"⟩] ["B"]).1 = [] :=
  stocks_then_prices_empty [⟨"A", ">10", "9.00"⟩] ["A", "B"]
    [⟨"A", 100⟩, ⟨"B", 0⟩] ["B"] (by decide) (by decide)
